import Mathlib

/-!
Shallow embedding of the formula-parsing / DNF-normalization core of the
hfp_formulatool_py repository (src/core/formula_parser.py, src/core/dnf.py,
src/core/utils.py, src/core/operator_config.py).

Strings are modelled as `List Char`; Python exceptions are modelled with
`Except` carrying the (modelled) message. Character classes (`isspace`,
`isalnum`, `\d`, `lower`, `upper`) are modelled at ASCII granularity, which
is exact for the operator tokens and the `[A-Za-z0-9_]` identifier alphabet
the engine manipulates.
-/

namespace HFP

abbrev Msg := List Char

instance {e a : Type} [DecidableEq e] [DecidableEq a] : DecidableEq (Except e a) :=
  fun x y =>
  match x, y with
  | .error m, .error n =>
    if h : m = n then .isTrue (by rw [h])
    else .isFalse (by intro hh; cases hh; exact h rfl)
  | .ok m, .ok n =>
    if h : m = n then .isTrue (by rw [h])
    else .isFalse (by intro hh; cases hh; exact h rfl)
  | .error _, .ok _ => .isFalse (by intro hh; cases hh)
  | .ok _, .error _ => .isFalse (by intro hh; cases hh)

/-- Python `str.isspace` restricted to ASCII whitespace. -/
def pySpace (c : Char) : Bool :=
  c == ' ' || c == '\t' || c == '\n' || c == '\r' || c == '\x0b' || c == '\x0c'

/-- `_is_word_char` of formula_parser.py: `ch.isalnum() or ch == "_"`;
also the character class of `_IDENTIFIER_RE = [A-Za-z0-9_]+`. -/
def isWordChar (c : Char) : Bool :=
  c.isAlphanum || c == '_'

/-- Python `str.strip()` (leading and trailing whitespace removed). -/
def strip (l : List Char) : List Char :=
  ((l.dropWhile pySpace).reverse.dropWhile pySpace).reverse

/-- Python `str.startswith` / `re` anchored match at the head. -/
def startsWithL (pat l : List Char) : Bool :=
  l.take pat.length == pat

/-- Python `str.endswith`. -/
def endsWithL (pat l : List Char) : Bool :=
  l.drop (l.length - pat.length) == pat

/-- Substring containment (used to state that an error message mentions an
offending fragment). -/
def containsSub (pat : List Char) : List Char → Bool
  | [] => pat.isEmpty
  | c :: rest => startsWithL pat (c :: rest) || containsSub pat rest

/- ### core/models.py -/

/-- `LiteralOp = Literal["EQ1", "EQ0", "NEQ1"]`. -/
inductive LiteralOp
  | EQ0
  | EQ1
  | NEQ1
deriving DecidableEq

/-- `LiteralModel` (frozen dataclass): identifier, display name, operation. -/
structure LiteralModel where
  id : List Char
  display_name : List Char
  op : LiteralOp
deriving DecidableEq

/- ### AST nodes of core/formula_parser.py -/

/-- The closed AST variant set `{LiteralNode, NotNode, AndNode, OrNode}`. -/
inductive AstNode
  | lit (literal : LiteralModel)
  | not (child : AstNode)
  | and (left : AstNode) (right : AstNode)
  | or (left : AstNode) (right : AstNode)
deriving DecidableEq

/- ### core/utils.py : natural_key -/

/-- One piece of a `natural_key`: a lowered text run (`Sum.inl`) or the
numeric value of a digit run (`Sum.inr`).  `Lex` of the sum gives a total
order; mismatched constructors are never compared between two
`natural_key` outputs because those always alternate text/number starting
and ending with a text piece, exactly as Python's
`re.split(r"(\d+)", text)` does. -/
abbrev KeyPart := Lex ((List Char) ⊕ Nat)

def mkStr (run : List Char) : KeyPart :=
  toLex (Sum.inl (run.map Char.toLower))

def digitsToNat (run : List Char) : Nat :=
  run.foldl (fun acc c => 10 * acc + (c.toNat - 48)) 0

def mkNum (run : List Char) : KeyPart :=
  toLex (Sum.inr (digitsToNat run))

/-- Worker for `natural_key`: walks the text grouping maximal digit /
non-digit runs (`cur` holds the current run reversed, `isDig` its kind),
emitting exactly the alternation `re.split(r"(\d+)", text)` produces,
including the empty text pieces at a leading/trailing digit run. -/
def nkGo (isDig : Bool) (cur : List Char) : List Char → List KeyPart
  | [] => if isDig then [mkNum cur.reverse, mkStr []] else [mkStr cur.reverse]
  | c :: rest =>
    if c.isDigit == isDig then nkGo isDig (c :: cur) rest
    else if isDig then mkNum cur.reverse :: nkGo false [c] rest
    else mkStr cur.reverse :: nkGo true [c] rest

/-- `natural_key` of utils.py: digit runs compare numerically, text runs
case-insensitively. -/
def natural_key (text : List Char) : List KeyPart :=
  nkGo false [] text

/- ### core/dnf.py -/

/-- `OP_ORDER = {"EQ0": 0, "EQ1": 1, "NEQ1": 2}`. -/
def OP_ORDER : LiteralOp → Nat
  | .EQ0 => 0
  | .EQ1 => 1
  | .NEQ1 => 2

abbrev Clause := List LiteralModel

/-- The literal sort key `(natural_key(lit.id), OP_ORDER[lit.op])` used in
`normalize_dnf`; `Lex` of the pair models Python tuple comparison. -/
abbrev LitKey := Lex (List KeyPart × Nat)

def litKey (l : LiteralModel) : LitKey :=
  toLex (natural_key l.id, OP_ORDER l.op)

/-- The clause sort key `[(natural_key(lit.id), OP_ORDER[lit.op]) for lit in
clause]`, compared lexicographically as Python compares lists. -/
def clauseKey (c : Clause) : List LitKey :=
  c.map litKey

def litLE (a b : LiteralModel) : Prop := litKey a ≤ litKey b

def clauseLE (a b : Clause) : Prop := clauseKey a ≤ clauseKey b

instance : DecidableRel litLE := fun a b =>
  inferInstanceAs (Decidable (litKey a ≤ litKey b))

instance : DecidableRel clauseLE := fun a b =>
  inferInstanceAs (Decidable (clauseKey a ≤ clauseKey b))

instance : IsTotal LiteralModel litLE :=
  ⟨fun a b => le_total (litKey a) (litKey b)⟩

instance : IsTrans LiteralModel litLE :=
  ⟨fun _ _ _ h h2 => le_trans h h2⟩

instance : IsTotal Clause clauseLE :=
  ⟨fun a b => le_total (clauseKey a) (clauseKey b)⟩

instance : IsTrans Clause clauseLE :=
  ⟨fun _ _ _ h h2 => le_trans h h2⟩

/-- `negate_literal` of dnf.py: EQ1 ↔ NEQ1, negating EQ0 raises. -/
def negate_literal (literal : LiteralModel) : Except Msg LiteralModel :=
  if literal.op = .EQ1 then
    .ok ⟨literal.id, literal.display_name, .NEQ1⟩
  else if literal.op = .NEQ1 then
    .ok ⟨literal.id, literal.display_name, .EQ1⟩
  else
    .error ("Negation of literal \x27".toList ++ literal.id ++
      "=0\x27 is not supported".toList)

/-- Structural size measure for `to_nnf` termination. -/
def nodeSize : AstNode → Nat
  | .lit _ => 1
  | .not c => nodeSize c + 1
  | .and l r => nodeSize l + nodeSize r + 1
  | .or l r => nodeSize l + nodeSize r + 1

/-- `to_nnf` of dnf.py.  Error propagation models the Python exceptions
(the left child is converted first, as Python evaluates arguments left to
right). -/
def to_nnf : AstNode → Except Msg AstNode
  | .lit m => .ok (.lit m)
  | .not (.lit m) =>
    match negate_literal m with
    | .error e => .error e
    | .ok m2 => .ok (.lit m2)
  | .not (.not x) => to_nnf x
  | .not (.and l r) =>
    match to_nnf (.not l) with
    | .error e => .error e
    | .ok a =>
      match to_nnf (.not r) with
      | .error e => .error e
      | .ok b => .ok (.or a b)
  | .not (.or l r) =>
    match to_nnf (.not l) with
    | .error e => .error e
    | .ok a =>
      match to_nnf (.not r) with
      | .error e => .error e
      | .ok b => .ok (.and a b)
  | .and l r =>
    match to_nnf l with
    | .error e => .error e
    | .ok a =>
      match to_nnf r with
      | .error e => .error e
      | .ok b => .ok (.and a b)
  | .or l r =>
    match to_nnf l with
    | .error e => .error e
    | .ok a =>
      match to_nnf r with
      | .error e => .error e
      | .ok b => .ok (.or a b)
termination_by n => nodeSize n
decreasing_by
  all_goals simp [nodeSize]
  all_goals omega

/-- `distribute_and` of dnf.py: the two nested `for` loops appending
`l_clause + r_clause`. -/
def distribute_and : List Clause → List Clause → List Clause
  | [], _ => []
  | lc :: rest, right => right.map (fun rc => lc ++ rc) ++ distribute_and rest right

/-- The structural recursion of `to_dnf` on an NNF tree.  The source's
`to_dnf` re-runs `to_nnf` at the top of every recursive call; since
`to_nnf` is the identity on its own (Not-free) output (see `to_nnf_fix`),
that is equivalent to normalizing once and recursing structurally, which
is how it is modelled here. -/
def dnfOfNnf : AstNode → Except Msg (List Clause)
  | .lit m => .ok [[m]]
  | .or l r =>
    match dnfOfNnf l with
    | .error e => .error e
    | .ok a =>
      match dnfOfNnf r with
      | .error e => .error e
      | .ok b => .ok (a ++ b)
  | .and l r =>
    match dnfOfNnf l with
    | .error e => .error e
    | .ok a =>
      match dnfOfNnf r with
      | .error e => .error e
      | .ok b => .ok (distribute_and a b)
  | .not _ => .error ("Unsupported AST node".toList)

/-- `to_dnf` of dnf.py: normalize to NNF, then expand. -/
def to_dnf (node : AstNode) : Except Msg (List Clause) :=
  match to_nnf node with
  | .error e => .error e
  | .ok n => dnfOfNnf n

/-- The `by_id` loop of `normalize_dnf`: scan the clause keeping the first
literal per identifier (insertion order, like a Python dict), returning
`none` when the same identifier occurs with two different operations
(the clause is a contradiction). -/
def buildById (acc : List LiteralModel) : List LiteralModel → Option (List LiteralModel)
  | [] => some acc
  | l :: rest =>
    match acc.find? (fun x => x.id == l.id) with
    | some existing =>
      if existing.op == l.op then buildById acc rest else none
    | none => buildById (acc ++ [l]) rest

/-- Per-clause step of `normalize_dnf`: dedup/contradiction-check, then
`sorted(by_id.values(), key=(natural_key(id), OP_ORDER[op]))`
(`insertionSort` is stable, like Python's sort). -/
def normClause (clause : Clause) : Option Clause :=
  (buildById [] clause).map (List.insertionSort litLE)

/-- `signature = tuple((lit.id, lit.op) for lit in ordered)`. -/
def signature (c : Clause) : List (List Char × LiteralOp) :=
  c.map fun l => (l.id, l.op)

/-- The main loop of `normalize_dnf`: process clauses in order, dropping
contradictions and clauses whose signature was already seen. -/
def dedupAux (seen : List (List (List Char × LiteralOp))) : List Clause → List Clause
  | [] => []
  | clause :: rest =>
    match normClause clause with
    | none => dedupAux seen rest
    | some ordered =>
      if signature ordered ∈ seen then dedupAux seen rest
      else ordered :: dedupAux (signature ordered :: seen) rest

/-- `normalize_dnf` of dnf.py: the loop above followed by
`normalized.sort(key=clauseKey)` (stable). -/
def normalize_dnf (clauses : List Clause) : List Clause :=
  List.insertionSort clauseLE (dedupAux [] clauses)

/-- Compatibility of two literals inside one clause: if they name the same
identifier they must use the same operation (otherwise `normalize_dnf`
drops the clause as a contradiction). -/
def compatible (a b : LiteralModel) : Prop := a.id = b.id → a.op = b.op

instance : ∀ a b, Decidable (compatible a b) := fun a b =>
  inferInstanceAs (Decidable (a.id = b.id → a.op = b.op))

/-- Reference formulation of "keep one literal per identifier, the first
occurrence": keep the head, drop every later literal with the same
identifier, recurse. -/
def firstOcc : List LiteralModel → List LiteralModel
  | [] => []
  | l :: rest => l :: firstOcc (rest.filter fun x => !(x.id == l.id))
termination_by cs => cs.length
decreasing_by
  simp only [List.length_cons]
  exact Nat.lt_succ_of_le (List.length_filter_le _ _)

/-- Sequential `Except` combination, modelling Python's left-to-right
argument evaluation when building a binary node. -/
def exceptMap2 (f : AstNode → AstNode → AstNode) (x y : Except Msg AstNode) :
    Except Msg AstNode :=
  match x with
  | .error e => .error e
  | .ok a =>
    match y with
    | .error e => .error e
    | .ok b => .ok (f a b)

/- ### core/formula_parser.py : tokenizer -/

inductive TokType
  | LPAREN
  | RPAREN
  | AND
  | OR
  | NOT
  | LITERAL
deriving DecidableEq

/-- `Token` (frozen dataclass): kind, raw text, source position. -/
structure Token where
  type : TokType
  value : List Char
  pos : Nat
deriving DecidableEq

/-- `OperatorConfig.expression_ops` evaluated on `DEFAULT_CONFIG` of
operator_config.py: `[(token, type, is_word)]`, longest-match-first
(Python's stable `sort(key=len, reverse=True)` over the insertion order
LPAREN, RPAREN, NOT-tokens, AND-tokens, OR-tokens). -/
def default_expression_ops : List (List Char × TokType × Bool) :=
  [("NOT".toList, .NOT, true),
   ("AND".toList, .AND, true),
   ("OR".toList, .OR, true),
   ("(".toList, .LPAREN, false),
   (")".toList, .RPAREN, false),
   ("!".toList, .NOT, false),
   ("&".toList, .AND, false),
   ("|".toList, .OR, false)]

/-- `OperatorConfig.neq_ops` on the default config: `("<>", "!=")`. -/
def default_neq_ops : List (List Char) := ["<>".toList, "!=".toList]

/-- `OperatorConfig.eq_ops` on the default config: `("=",)`. -/
def default_eq_ops : List (List Char) := ["=".toList]

/-- Word-boundary test: the position before/after a word operator must not
hold an identifier character (`before_ok` / `after_ok` in `_matches_at`).
`none` stands for start/end of input. -/
def boundaryOk : Option Char → Bool
  | none => true
  | some c => !isWordChar c

/-- `_matches_at(formula, pos, token, is_word)` of formula_parser.py,
with the text from `pos` on passed as `cs` and the character at `pos - 1`
(if any) as `prev`.  Word operators match case-insensitively and only at
word boundaries; symbolic operators match verbatim. -/
def matches_at (cs : List Char) (prev : Option Char) (token : List Char)
    (is_word : Bool) : Bool :=
  if is_word then
    ((cs.take token.length).map Char.toUpper == token)
      && boundaryOk prev
      && boundaryOk (cs.drop token.length).head?
  else
    startsWithL token cs

/-- The operator scan of `tokenize`: first configured operator (in
longest-match-first order) matching at the current position. -/
def findOp (cs : List Char) (prev : Option Char) :
    List (List Char × TokType × Bool) → Option (List Char × TokType)
  | [] => none
  | (tok, ty, isw) :: rest =>
    if matches_at cs prev tok isw then some (tok, ty) else findOp cs prev rest

/-- The comparator scan inside a literal: first of
`list(neq_ops) + list(eq_ops)` that the remaining text starts with. -/
def findComp (rem : List Char) : List (List Char) → Option (List Char)
  | [] => none
  | comp :: rest => if startsWithL comp rem then some comp else findComp rem rest

/-- One `while` pass of `tokenize`, structurally recursive on `fuel`
(initialised to `length + 1`; every iteration consumes at least one
character, so the fuel branch is never reached from `tokenize`). -/
def tokenizeAux : Nat → Option Char → Nat → List Char → Except Msg (List Token)
  | _, _, _, [] => .ok []
  | 0, _, _, _ :: _ => .error ("TOKENIZE_FAILED: fuel exhausted".toList)
  | f + 1, prev, pos, c :: rest =>
    if pySpace c then tokenizeAux f (some c) (pos + 1) rest
    else
      match findOp (c :: rest) prev default_expression_ops with
      | some (tok, ty) =>
        match tokenizeAux f ((c :: rest).take tok.length).getLast?
            (pos + tok.length) ((c :: rest).drop tok.length) with
        | .error e => .error e
        | .ok ts => .ok (⟨ty, tok, pos⟩ :: ts)
      | none =>
        -- Literal: optional leading '!' + identifier + optional (NEQ|EQ)(0|1)
        let rest1 := if c == '!' then rest else c :: rest
        let ident := rest1.takeWhile isWordChar
        if ident.isEmpty then
          .error ("TOKENIZE_FAILED: unknown character \x27".toList ++ [c] ++
            "\x27".toList)
        else
          let rest2 := rest1.drop ident.length
          match findComp rest2 (default_neq_ops ++ default_eq_ops) with
          | some comp =>
            match rest2.drop comp.length with
            | [] =>
              .error ("TOKENIZE_FAILED: expected 0/1 after \x27".toList ++
                comp ++ "\x27 got=<eof>".toList)
            | d :: rest4 =>
              if d == '0' || d == '1' then
                let value := (if c == '!' then ['!'] else []) ++ ident ++ comp ++ [d]
                match tokenizeAux f (some d) (pos + value.length) rest4 with
                | .error e => .error e
                | .ok ts => .ok (⟨.LITERAL, value, pos⟩ :: ts)
              else
                .error ("TOKENIZE_FAILED: expected 0/1 after \x27".toList ++
                  comp ++ "\x27 got=\x27".toList ++ [d] ++ "\x27".toList)
          | none =>
            let value := (if c == '!' then ['!'] else []) ++ ident
            match tokenizeAux f ident.getLast? (pos + value.length) rest2 with
            | .error e => .error e
            | .ok ts => .ok (⟨.LITERAL, value, pos⟩ :: ts)

/-- `tokenize(formula)` under the default operator configuration. -/
def tokenize (formula : List Char) : Except Msg (List Token) :=
  tokenizeAux (formula.length + 1) none 0 formula

/- ### core/formula_parser.py : parse_literal -/

/-- `re.search(r"[<>]=|>=|<=", text)`: an angle bracket immediately
followed by `=` (the `>=`/`<=` alternatives are subsumed). -/
def hasAngleEq : List Char → Bool
  | a :: b :: rest => ((a == '<' || a == '>') && b == '=') || hasAngleEq (b :: rest)
  | _ => false

/-- `re.search(r"[<>]", text)`. -/
def hasAngle (l : List Char) : Bool :=
  l.any fun c => c == '<' || c == '>'

/-- The `for neq in op_config.neq_ops` loop that hard-fails on a trailing
`{neq}0`: first NEQ token such that the text ends with it followed by `0`. -/
def findNeq0 (text : List Char) : List (List Char) → Option (List Char)
  | [] => none
  | neq :: rest =>
    if endsWithL (neq ++ ['0']) text then some neq else findNeq0 text rest

/-- Case-insensitive whole-word match of `w` at the head of `cs`
(`prev` is the character before the current position). -/
def wordAt (w : List Char) (prev : Option Char) (cs : List Char) : Bool :=
  ((cs.take w.length).map Char.toUpper == w)
    && boundaryOk prev
    && boundaryOk (cs.drop w.length).head?

def hasWordAux (w : List Char) (prev : Option Char) : List Char → Bool
  | [] => false
  | c :: rest => wordAt w prev (c :: rest) || hasWordAux w (some c) rest

/-- `re.search(r"\bXOR\b|\bIF\b", text, re.IGNORECASE)`. -/
def hasXorIf (text : List Char) : Bool :=
  hasWordAux "XOR".toList none text || hasWordAux "IF".toList none text

/-- Python `identifier[:-n]` for `n ≤ len`. -/
def dropSuffix (l : List Char) (n : Nat) : List Char :=
  l.take (l.length - n)

/-- The `for neq in op_config.neq_ops` suffix-resolution loop:
`identifier.endswith(f"{neq}1")` yields NEQ1 with the suffix removed and
the remainder stripped. -/
def resolveNeq (text : List Char) : List (List Char) → Option (List Char × LiteralOp)
  | [] => none
  | neq :: rest =>
    if endsWithL (neq ++ ['1']) text then
      some (strip (dropSuffix text (neq.length + 1)), .NEQ1)
    else resolveNeq text rest

/-- The `for eq in op_config.eq_ops` suffix-resolution loop: `{eq}0` yields
EQ0, `{eq}1` yields EQ1. -/
def resolveEq (text : List Char) : List (List Char) → Option (List Char × LiteralOp)
  | [] => none
  | eq :: rest =>
    if endsWithL (eq ++ ['0']) text then
      some (strip (dropSuffix text (eq.length + 1)), .EQ0)
    else if endsWithL (eq ++ ['1']) text then
      some (strip (dropSuffix text (eq.length + 1)), .EQ1)
    else resolveEq text rest

/-- The suffix-resolution order of `parse_literal`: leading `!` → NEQ1;
else NEQ tokens + `1` → NEQ1; else EQ tokens + `0`/`1` → EQ0/EQ1;
else bare identifier → EQ1. -/
def resolveSuffix (text : List Char) : List Char × LiteralOp :=
  if text.head? == some '!' then (strip text.tail, .NEQ1)
  else
    match resolveNeq text default_neq_ops with
    | some p => p
    | none =>
      match resolveEq text default_eq_ops with
      | some p => p
      | none => (text, .EQ1)

/-- `parse_literal(raw_literal, display_name)` of formula_parser.py under
the default operator configuration (`text` of the source is
`strip raw_literal` throughout). -/
def parse_literal (raw_literal display_name : List Char) : Except Msg LiteralModel :=
  if hasAngleEq (strip raw_literal) then
    .error ("Unsupported comparison in literal: ".toList ++ strip raw_literal)
  else
    match (if hasAngle (strip raw_literal) then
        findNeq0 (strip raw_literal) default_neq_ops else none) with
    | some neq =>
      .error ("Invalid comparison in literal: \x27".toList ++ neq ++
        "0\x27 is not allowed (use \x27".toList ++ neq ++
        "1\x27). Literal: ".toList ++ strip raw_literal)
    | none =>
      if hasXorIf (strip raw_literal) then
        .error ("Unsupported operator in literal: ".toList ++ strip raw_literal)
      else
        match resolveSuffix (strip raw_literal) with
        | (identifier, op) =>
          if identifier.isEmpty then
            .error ("Literal missing identifier".toList)
          else if !(identifier.all isWordChar) then
            .error ("Invalid literal identifier: ".toList ++ identifier ++
              " (expected [A-Za-z0-9_]+)".toList)
          else
            .ok ⟨identifier, display_name, op⟩

/- ### core/formula_parser.py : Parser -/

/-- The parser's failure modes.  `consume()` on an exhausted stream raises
"unexpected end of formula" (`unexpectedEnd`); `consume(expected)` on a
mismatched token raises "expected X but got Y" (`expectedTok`);
`parse_factor` raises on an unusable token (`unexpectedToken`);
`Parser.parse` raises when tokens remain after a complete expression
(`trailing`); a literal-callback failure is re-wrapped (`literalFailed`);
`parse_formula_with_literal_parser` raises on an empty token stream
(`emptyFormula`).  `fuelExhausted` is an artifact of the fuel-based
embedding and is proved unreachable at the fuel `parseTokens` uses. -/
inductive PErr
  | fuelExhausted
  | emptyFormula
  | unexpectedEnd
  | expectedTok (expected : TokType) (got : Token)
  | unexpectedToken (got : Token)
  | trailing (got : Token)
  | literalFailed (msg : Msg) (pos : Nat)
deriving DecidableEq

/-- The recursive-descent phases of the `Parser` class: `parse_factor`,
`parse_term` (entry + its AND `while` loop), `parse_expr` (entry + its OR
`while` loop).  The loop phases carry the accumulated left node. -/
inductive PCall
  | factor (ts : List Token)
  | term (ts : List Token)
  | termLoop (node : AstNode) (ts : List Token)
  | expr (ts : List Token)
  | exprLoop (node : AstNode) (ts : List Token)

/-- The recursive-descent parser over a token list, returning the parsed
node and the unconsumed tokens.  `lp` is the caller-supplied
literal-interpretation callback.  Structurally recursive on `fuel`;
`parseTokens` runs it with fuel `3 * length + 3`, which is proved
sufficient (`parseF_no_fuel`). -/
def parseF (lp : List Char → Except Msg LiteralModel) :
    Nat → PCall → Except PErr (AstNode × List Token)
  | 0, _ => .error .fuelExhausted
  | _ + 1, .factor [] => .error .unexpectedEnd
  | f + 1, .factor (t :: rest) =>
    match t.type with
    | .NOT =>
      match parseF lp f (.factor rest) with
      | .error e => .error e
      | .ok (a, r) => .ok (.not a, r)
    | .LPAREN =>
      match parseF lp f (.expr rest) with
      | .error e => .error e
      | .ok (a, r) =>
        match r with
        | [] => .error .unexpectedEnd
        | t2 :: r2 =>
          if t2.type = .RPAREN then .ok (a, r2)
          else .error (.expectedTok .RPAREN t2)
    | .LITERAL =>
      match lp t.value with
      | .error m => .error (.literalFailed m t.pos)
      | .ok lit => .ok (.lit lit, rest)
    | _ => .error (.unexpectedToken t)
  | f + 1, .term ts =>
    match parseF lp f (.factor ts) with
    | .error e => .error e
    | .ok (a, r) => parseF lp f (.termLoop a r)
  | _ + 1, .termLoop a [] => .ok (a, [])
  | f + 1, .termLoop a (t :: rest) =>
    if t.type = .AND then
      match parseF lp f (.factor rest) with
      | .error e => .error e
      | .ok (b, r) => parseF lp f (.termLoop (.and a b) r)
    else .ok (a, t :: rest)
  | f + 1, .expr ts =>
    match parseF lp f (.term ts) with
    | .error e => .error e
    | .ok (a, r) => parseF lp f (.exprLoop a r)
  | _ + 1, .exprLoop a [] => .ok (a, [])
  | f + 1, .exprLoop a (t :: rest) =>
    if t.type = .OR then
      match parseF lp f (.term rest) with
      | .error e => .error e
      | .ok (b, r) => parseF lp f (.exprLoop (.or a b) r)
    else .ok (a, t :: rest)

def topFuel (ts : List Token) : Nat := 3 * ts.length + 3

/-- `parse_formula_with_literal_parser` after tokenization: empty token
streams are rejected, then `Parser.parse` runs `parse_expr` and requires
every token to be consumed. -/
def parseTokens (lp : List Char → Except Msg LiteralModel) (ts : List Token) :
    Except PErr AstNode :=
  if ts.isEmpty then .error .emptyFormula
  else
    match parseF lp (topFuel ts) (.expr ts) with
    | .error e => .error e
    | .ok (a, []) => .ok a
    | .ok (_, t :: _) => .error (.trailing t)

/-- A whole-pipeline failure: tokenizer error or parser error. -/
inductive FErr
  | tok (m : Msg)
  | parse (e : PErr)
deriving DecidableEq

/-- The literal callback `parse_formula` installs:
`lambda value: parse_literal(value, value, op_config)`. -/
def default_lp (v : List Char) : Except Msg LiteralModel :=
  parse_literal v v

/-- `parse_formula(formula)` under the default operator configuration. -/
def parse_formula (formula : List Char) : Except FErr AstNode :=
  match tokenize formula with
  | .error m => .error (.tok m)
  | .ok ts =>
    match parseTokens default_lp ts with
    | .error e => .error (.parse e)
    | .ok a => .ok a

/-- The failure classes of the parser itself (`Parser` in the source):
"unexpected end of formula", "expected RPAREN but got ..." (the only
`consume(expected)` that can mismatch), and "unexpected token".  Neither
the fuel artifact nor a literal-callback failure is among them. -/
def goodErr (e : PErr) : Prop :=
  e = .unexpectedEnd ∨ (∃ t, e = .expectedTok .RPAREN t) ∨
    (∃ t, e = .unexpectedToken t)

/- ### Helper lemmas -/

theorem to_dnf_lit_eq (m : LiteralModel) : to_dnf (.lit m) = .ok [[m]] := by
  simp [to_dnf, to_nnf, dnfOfNnf]

theorem to_dnf_or_eq (l r : AstNode) (a b : List Clause)
    (hl : to_dnf l = .ok a) (hr : to_dnf r = .ok b) :
    to_dnf (.or l r) = .ok (a ++ b) := by
  unfold to_dnf at hl hr ⊢
  cases h1 : to_nnf l with
  | error e => rw [h1] at hl; exact absurd hl (by simp)
  | ok nl =>
    cases h2 : to_nnf r with
    | error e => rw [h2] at hr; exact absurd hr (by simp)
    | ok nr =>
      rw [h1] at hl
      rw [h2] at hr
      simp only [Except.ok.injEq] at hl hr
      rw [show to_nnf (.or l r) = .ok (.or nl nr) by rw [to_nnf, h1, h2]]
      simp [dnfOfNnf, hl, hr]

theorem to_dnf_and_eq (l r : AstNode) (a b : List Clause)
    (hl : to_dnf l = .ok a) (hr : to_dnf r = .ok b) :
    to_dnf (.and l r) = .ok (distribute_and a b) := by
  unfold to_dnf at hl hr ⊢
  cases h1 : to_nnf l with
  | error e => rw [h1] at hl; exact absurd hl (by simp)
  | ok nl =>
    cases h2 : to_nnf r with
    | error e => rw [h2] at hr; exact absurd hr (by simp)
    | ok nr =>
      rw [h1] at hl
      rw [h2] at hr
      simp only [Except.ok.injEq] at hl hr
      rw [show to_nnf (.and l r) = .ok (.and nl nr) by rw [to_nnf, h1, h2]]
      simp [dnfOfNnf, hl, hr]

theorem mem_distribute_and (a b : List Clause) (c : Clause) :
    c ∈ distribute_and a b ↔ ∃ lc, lc ∈ a ∧ ∃ rc, rc ∈ b ∧ c = lc ++ rc := by
  induction a with
  | nil => simp [distribute_and]
  | cons lc rest ih =>
    simp only [distribute_and, List.mem_append, List.mem_map, ih, List.mem_cons]
    constructor
    · rintro (⟨rc, hrc, rfl⟩ | ⟨lc2, h1, rc, h2, rfl⟩)
      · exact ⟨lc, Or.inl rfl, rc, hrc, rfl⟩
      · exact ⟨lc2, Or.inr h1, rc, h2, rfl⟩
    · rintro ⟨lc2, h1 | h1, rc, h2, rfl⟩
      · subst h1; exact Or.inl ⟨rc, h2, rfl⟩
      · exact Or.inr ⟨lc2, h1, rc, h2, rfl⟩

/- ### Claim theorems C1, C2 -/

/-- C1: `to_dnf` satisfies the reference clause-list recursion on every AST
whose NNF conversion (hence DNF expansion) succeeds: a literal becomes a
singleton one-literal clause list, `Or` concatenates the children's clause
lists, `And` takes their cartesian product concatenating each left clause
with each right clause; in particular, for distinct literals X, Y, Z, the
AST of `X AND (Y OR Z)` yields exactly the 2 two-literal clauses
`[[X,Y],[X,Z]]`, and the AST of `X OR Y OR Z` yields exactly the 3
one-literal clauses `[[X],[Y],[Z]]`. -/
theorem C1_to_dnf_structure :
    (∀ m : LiteralModel, to_dnf (.lit m) = .ok [[m]]) ∧
    (∀ l r a b, to_dnf l = .ok a → to_dnf r = .ok b →
      to_dnf (.or l r) = .ok (a ++ b)) ∧
    (∀ l r a b, to_dnf l = .ok a → to_dnf r = .ok b →
      to_dnf (.and l r) = .ok (distribute_and a b)) ∧
    (∀ a b c, c ∈ distribute_and a b ↔ ∃ lc, lc ∈ a ∧ ∃ rc, rc ∈ b ∧ c = lc ++ rc) ∧
    (∀ X Y Z : LiteralModel, X ≠ Y → X ≠ Z → Y ≠ Z →
      to_dnf (.and (.lit X) (.or (.lit Y) (.lit Z))) = .ok [[X, Y], [X, Z]] ∧
      ([[X, Y], [X, Z]] : List Clause).length = 2 ∧
      (∀ c ∈ ([[X, Y], [X, Z]] : List Clause), c.length = 2) ∧
      to_dnf (.or (.or (.lit X) (.lit Y)) (.lit Z)) = .ok [[X], [Y], [Z]] ∧
      ([[X], [Y], [Z]] : List Clause).length = 3 ∧
      (∀ c ∈ ([[X], [Y], [Z]] : List Clause), c.length = 1)) := by
  refine ⟨to_dnf_lit_eq, to_dnf_or_eq, to_dnf_and_eq, mem_distribute_and, ?_⟩
  intro X Y Z _ _ _
  refine ⟨?_, rfl, by simp, ?_, rfl, by simp⟩
  · have h1 := to_dnf_lit_eq X
    have h2 := to_dnf_or_eq (.lit Y) (.lit Z) _ _ (to_dnf_lit_eq Y) (to_dnf_lit_eq Z)
    have := to_dnf_and_eq (.lit X) (.or (.lit Y) (.lit Z)) _ _ h1 h2
    simpa [distribute_and] using this
  · have h1 := to_dnf_or_eq (.lit X) (.lit Y) _ _ (to_dnf_lit_eq X) (to_dnf_lit_eq Y)
    have := to_dnf_or_eq (.or (.lit X) (.lit Y)) (.lit Z) _ _ h1 (to_dnf_lit_eq Z)
    simpa using this

/-- C1 witness: the theorem instantiated at the three distinct concrete
literals X=1, Y=1, Z=1. -/
theorem C1_to_dnf_structure_witness :
    to_dnf (.and (.lit ⟨"X".toList, "X".toList, .EQ1⟩)
        (.or (.lit ⟨"Y".toList, "Y".toList, .EQ1⟩) (.lit ⟨"Z".toList, "Z".toList, .EQ1⟩))) =
      .ok [[⟨"X".toList, "X".toList, .EQ1⟩, ⟨"Y".toList, "Y".toList, .EQ1⟩],
           [⟨"X".toList, "X".toList, .EQ1⟩, ⟨"Z".toList, "Z".toList, .EQ1⟩]] :=
  (C1_to_dnf_structure.2.2.2.2 ⟨"X".toList, "X".toList, .EQ1⟩
    ⟨"Y".toList, "Y".toList, .EQ1⟩ ⟨"Z".toList, "Z".toList, .EQ1⟩
    (by decide) (by decide) (by decide)).1

/-- C2: `to_nnf` agrees clause-by-clause with the reference definition:
literals are unchanged; `Not(literal)` negates the operation via
`negate_literal` (EQ1 ↔ NEQ1, negating EQ0 fails); `Not(Not(x))` is
`to_nnf x`; De Morgan turns `Not(And)` into `Or` of the negated children
and `Not(Or)` into `And`; `And`/`Or` recurse into their children. -/
theorem C2_to_nnf_reference :
    (∀ i d, negate_literal ⟨i, d, .EQ1⟩ = .ok ⟨i, d, .NEQ1⟩) ∧
    (∀ i d, negate_literal ⟨i, d, .NEQ1⟩ = .ok ⟨i, d, .EQ1⟩) ∧
    (∀ i d, ∃ m, negate_literal ⟨i, d, .EQ0⟩ = .error m) ∧
    (∀ m, to_nnf (.lit m) = .ok (.lit m)) ∧
    (∀ m, to_nnf (.not (.lit m)) =
      (match negate_literal m with
       | .error e => .error e
       | .ok m2 => .ok (.lit m2))) ∧
    (∀ x, to_nnf (.not (.not x)) = to_nnf x) ∧
    (∀ l r, to_nnf (.not (.and l r)) =
      exceptMap2 .or (to_nnf (.not l)) (to_nnf (.not r))) ∧
    (∀ l r, to_nnf (.not (.or l r)) =
      exceptMap2 .and (to_nnf (.not l)) (to_nnf (.not r))) ∧
    (∀ l r, to_nnf (.and l r) = exceptMap2 .and (to_nnf l) (to_nnf r)) ∧
    (∀ l r, to_nnf (.or l r) = exceptMap2 .or (to_nnf l) (to_nnf r)) := by
  refine ⟨?_, ?_, ?_, ?_, ?_, ?_, ?_, ?_, ?_, ?_⟩
  · intro i d; simp [negate_literal]
  · intro i d; simp [negate_literal]
  · intro i d; exact ⟨_, rfl⟩
  · intro m; rw [to_nnf]
  · intro m; rw [to_nnf]
  · intro x; rw [to_nnf]
  · intro l r; rw [to_nnf]; rfl
  · intro l r; rw [to_nnf]; rfl
  · intro l r; rw [to_nnf]; rfl
  · intro l r; rw [to_nnf]; rfl

/- ### Helper lemmas about normalize_dnf -/

theorem compatible_symm : Symmetric compatible := by
  intro a b h hba
  exact (h hba.symm).symm

theorem idNe_symm : Symmetric (fun a b : LiteralModel => a.id ≠ b.id) := by
  intro a b h e
  exact h e.symm

theorem sigNe_symm : Symmetric (fun a b : Clause => signature a ≠ signature b) := by
  intro a b h e
  exact h e.symm

theorem find?_id_eq_none (acc : List LiteralModel) (i : List Char)
    (h : ∀ a ∈ acc, a.id ≠ i) :
    acc.find? (fun x => x.id == i) = none :=
  List.find?_eq_none.mpr fun x hx => by simp [h x hx]

theorem find?_id_eq_some (acc : List LiteralModel) (a : LiteralModel)
    (hn : acc.Pairwise (fun x y => x.id ≠ y.id)) (ha : a ∈ acc) :
    acc.find? (fun x => x.id == a.id) = some a := by
  induction acc with
  | nil => cases ha
  | cons b rest ih =>
    rcases List.mem_cons.mp ha with rfl | ha2
    · exact List.find?_cons_of_pos _ (by simp)
    · have hbne : b.id ≠ a.id := (List.pairwise_cons.mp hn).1 a ha2
      rw [List.find?_cons_of_neg _ (by simp [hbne])]
      exact ih (List.pairwise_cons.mp hn).2 ha2

theorem buildById_some_of_nodup :
    ∀ (cs acc : List LiteralModel),
      (acc ++ cs).Pairwise (fun x y => x.id ≠ y.id) →
      buildById acc cs = some (acc ++ cs)
  | [], acc, _ => by simp [buildById]
  | l :: rest, acc, h => by
    have hfind : acc.find? (fun x => x.id == l.id) = none := by
      apply find?_id_eq_none
      intro a ha
      exact (List.pairwise_append.mp h).2.2 a ha l (List.mem_cons_self l rest)
    have h2 : ((acc ++ [l]) ++ rest).Pairwise (fun x y => x.id ≠ y.id) := by
      simpa [List.append_assoc] using h
    rw [buildById, hfind]
    simpa [List.append_assoc] using buildById_some_of_nodup rest (acc ++ [l]) h2

theorem buildById_some_nodup :
    ∀ (cs acc : List LiteralModel),
      acc.Pairwise (fun x y => x.id ≠ y.id) →
      ∀ out, buildById acc cs = some out →
      out.Pairwise (fun x y => x.id ≠ y.id)
  | [], acc, hn, out, h => by
    rw [buildById] at h
    exact (Option.some.injEq _ _ ▸ h) ▸ hn
  | l :: rest, acc, hn, out, h => by
    rw [buildById] at h
    cases hf : acc.find? (fun x => x.id == l.id) with
    | some ex =>
      simp only [hf] at h
      by_cases hop : (ex.op == l.op) = true
      · rw [if_pos hop] at h
        exact buildById_some_nodup rest acc hn out h
      · rw [if_neg hop] at h
        exact absurd h (by simp)
    | none =>
      simp only [hf] at h
      have hnotin : ∀ a ∈ acc, a.id ≠ l.id := by
        intro a ha
        have := List.find?_eq_none.mp hf a ha
        simpa using this
      have hn2 : (acc ++ [l]).Pairwise (fun x y => x.id ≠ y.id) := by
        rw [List.pairwise_append]
        exact ⟨hn, by simp, by simpa using hnotin⟩
      exact buildById_some_nodup rest (acc ++ [l]) hn2 out h

theorem buildById_some_subset :
    ∀ (cs acc : List LiteralModel) (out : List LiteralModel),
      buildById acc cs = some out →
      ∀ x ∈ out, x ∈ acc ∨ x ∈ cs
  | [], acc, out, h, x, hx => by
    rw [buildById] at h
    cases h
    exact Or.inl hx
  | l :: rest, acc, out, h, x, hx => by
    rw [buildById] at h
    cases hf : acc.find? (fun x => x.id == l.id) with
    | some ex =>
      simp only [hf] at h
      by_cases hop : (ex.op == l.op) = true
      · rw [if_pos hop] at h
        rcases buildById_some_subset rest acc out h x hx with h1 | h1
        · exact Or.inl h1
        · exact Or.inr (List.mem_cons_of_mem _ h1)
      · rw [if_neg hop] at h
        exact absurd h (by simp)
    | none =>
      simp only [hf] at h
      rcases buildById_some_subset rest (acc ++ [l]) out h x hx with h1 | h1
      · rcases List.mem_append.mp h1 with h2 | h2
        · exact Or.inl h2
        · exact Or.inr (by simpa using Or.inl (List.mem_singleton.mp h2))
      · exact Or.inr (List.mem_cons_of_mem _ h1)

theorem buildById_none_of_conflict :
    ∀ (cs acc : List LiteralModel),
      acc.Pairwise (fun x y => x.id ≠ y.id) →
      ((∃ a ∈ acc, ∃ b ∈ cs, a.id = b.id ∧ a.op ≠ b.op) ∨ ¬ cs.Pairwise compatible) →
      buildById acc cs = none
  | [], acc, _, hconf => by
    rcases hconf with ⟨a, _, b, hb, _⟩ | hnp
    · cases hb
    · exact absurd List.Pairwise.nil hnp
  | l :: rest, acc, hn, hconf => by
    rw [buildById]
    have step_none : acc.find? (fun x => x.id == l.id) = none →
        ((∃ a ∈ acc ++ [l], ∃ b ∈ rest, a.id = b.id ∧ a.op ≠ b.op) ∨
          ¬ rest.Pairwise compatible) →
        buildById (acc ++ [l]) rest = none := by
      intro hf hc
      have hnotin : ∀ a ∈ acc, a.id ≠ l.id := by
        intro a ha
        have := List.find?_eq_none.mp hf a ha
        simpa using this
      have hn2 : (acc ++ [l]).Pairwise (fun x y => x.id ≠ y.id) := by
        rw [List.pairwise_append]
        exact ⟨hn, by simp, by simpa using hnotin⟩
      exact buildById_none_of_conflict rest (acc ++ [l]) hn2 hc
    rcases hconf with ⟨a, ha, b, hb, hid, hop⟩ | hnp
    · rcases List.mem_cons.mp hb with rfl | hbrest
      · -- conflict between acc and the head literal
        have hf : acc.find? (fun x => x.id == b.id) = some a := by
          have := find?_id_eq_some acc a hn ha
          rwa [hid] at this
        simp only [hf]
        rw [if_neg (by simpa using hop)]
      · cases hf : acc.find? (fun x => x.id == l.id) with
        | some ex =>
          simp only [hf]
          by_cases hop2 : (ex.op == l.op) = true
          · rw [if_pos hop2]
            exact buildById_none_of_conflict rest acc hn
              (Or.inl ⟨a, ha, b, hbrest, hid, hop⟩)
          · rw [if_neg hop2]
        | none =>
          show buildById (acc ++ [l]) rest = none
          exact step_none hf (Or.inl ⟨a, List.mem_append.mpr (Or.inl ha), b, hbrest, hid, hop⟩)
    · rw [List.pairwise_cons] at hnp
      push_neg at hnp
      rcases Classical.em (∀ y ∈ rest, compatible l y) with hall | hnall
      · have hnp2 : ¬ rest.Pairwise compatible := fun h => hnp hall h
        cases hf : acc.find? (fun x => x.id == l.id) with
        | some ex =>
          simp only [hf]
          by_cases hop2 : (ex.op == l.op) = true
          · rw [if_pos hop2]
            exact buildById_none_of_conflict rest acc hn (Or.inr hnp2)
          · rw [if_neg hop2]
        | none =>
          show buildById (acc ++ [l]) rest = none
          exact step_none hf (Or.inr hnp2)
      · push_neg at hnall
        rcases hnall with ⟨y, hy, hny⟩
        rw [compatible] at hny
        push_neg at hny
        rcases hny with ⟨hid, hop⟩
        cases hf : acc.find? (fun x => x.id == l.id) with
        | some ex =>
          simp only [hf]
          have hexid : ex.id = l.id := by
            have := List.find?_some hf
            simpa using this
          by_cases hop2 : (ex.op == l.op) = true
          · rw [if_pos hop2]
            have hexop : ex.op = l.op := by simpa using hop2
            exact buildById_none_of_conflict rest acc hn
              (Or.inl ⟨ex, List.mem_of_find?_eq_some hf, y, hy,
                hexid.trans hid, hexop ▸ hop⟩)
          · rw [if_neg hop2]
        | none =>
          show buildById (acc ++ [l]) rest = none
          exact step_none hf
            (Or.inl ⟨l, List.mem_append.mpr (Or.inr (List.mem_singleton.mpr rfl)),
              y, hy, hid, hop⟩)

theorem buildById_none_imp :
    ∀ (cs acc : List LiteralModel), buildById acc cs = none →
      (∃ a ∈ acc, ∃ b ∈ cs, a.id = b.id ∧ a.op ≠ b.op) ∨ ¬ cs.Pairwise compatible
  | [], acc, h => by
    rw [buildById] at h
    cases h
  | l :: rest, acc, h => by
    rw [buildById] at h
    cases hf : acc.find? (fun x => x.id == l.id) with
    | some ex =>
      simp only [hf] at h
      have hexid : ex.id = l.id := by
        have := List.find?_some hf
        simpa using this
      have hexmem := List.mem_of_find?_eq_some hf
      by_cases hop : (ex.op == l.op) = true
      · rw [if_pos hop] at h
        have hexop : ex.op = l.op := by simpa using hop
        rcases buildById_none_imp rest acc h with ⟨a, ha, b, hb, hid2, hop2⟩ | hnp
        · exact Or.inl ⟨a, ha, b, List.mem_cons_of_mem _ hb, hid2, hop2⟩
        · refine Or.inr fun hp => hnp ?_
          exact (List.pairwise_cons.mp hp).2
      · have hexop : ex.op ≠ l.op := by simpa using hop
        exact Or.inl ⟨ex, hexmem, l, List.mem_cons_self _ _, hexid, hexop⟩
    | none =>
      simp only [hf] at h
      rcases buildById_none_imp rest (acc ++ [l]) h with ⟨a, ha, b, hb, hid2, hop2⟩ | hnp
      · rcases List.mem_append.mp ha with h2 | h2
        · exact Or.inl ⟨a, h2, b, List.mem_cons_of_mem _ hb, hid2, hop2⟩
        · have : a = l := List.mem_singleton.mp h2
          subst this
          refine Or.inr fun hp => ?_
          have := (List.pairwise_cons.mp hp).1 b hb
          rw [compatible] at this
          exact hop2 (this hid2)
      · refine Or.inr fun hp => hnp ?_
        exact (List.pairwise_cons.mp hp).2

theorem not_pairwise_compatible_iff (c : Clause) :
    ¬ c.Pairwise compatible ↔ ∃ x ∈ c, ∃ y ∈ c, x.id = y.id ∧ x.op ≠ y.op := by
  constructor
  · intro h
    rw [List.pairwise_iff_get] at h
    push_neg at h
    rcases h with ⟨i, j, hij, hc⟩
    rw [compatible] at hc
    push_neg at hc
    exact ⟨c.get i, c.get_mem _ _, c.get j, c.get_mem _ _, hc.1, hc.2⟩
  · rintro ⟨x, hx, y, hy, hid, hop⟩ hp
    rw [List.pairwise_iff_get] at hp
    rcases List.mem_iff_get.mp hx with ⟨i, rfl⟩
    rcases List.mem_iff_get.mp hy with ⟨j, rfl⟩
    rcases Nat.lt_trichotomy i.val j.val with hlt | heq | hgt
    · exact hop (hp i j (by omega) hid)
    · have : i = j := Fin.ext heq
      subst this
      exact hop (congrArg LiteralModel.op rfl)
    · exact hop ((hp j i (by omega) hid.symm).symm)

theorem normClause_none_iff (c : Clause) :
    normClause c = none ↔ ∃ x ∈ c, ∃ y ∈ c, x.id = y.id ∧ x.op ≠ y.op := by
  rw [normClause, Option.map_eq_none']
  constructor
  · intro h
    rcases buildById_none_imp c [] h with ⟨a, ha, _⟩ | hnp
    · cases ha
    · exact (not_pairwise_compatible_iff c).mp hnp
  · intro h
    exact buildById_none_of_conflict c [] List.Pairwise.nil
      (Or.inr ((not_pairwise_compatible_iff c).mpr h))

theorem normClause_some_sorted (c out : Clause) (h : normClause c = some out) :
    out.Sorted litLE := by
  rw [normClause] at h
  cases hb : buildById [] c with
  | none => rw [hb] at h; cases h
  | some b =>
    rw [hb] at h
    cases h
    exact List.sorted_insertionSort litLE b

theorem normClause_some_perm (c out : Clause) (h : normClause c = some out) :
    ∃ b, buildById [] c = some b ∧ out.Perm b := by
  rw [normClause] at h
  cases hb : buildById [] c with
  | none => rw [hb] at h; cases h
  | some b =>
    rw [hb] at h
    cases h
    exact ⟨b, rfl, List.perm_insertionSort litLE b⟩

theorem normClause_some_nodup (c out : Clause) (h : normClause c = some out) :
    out.Pairwise (fun x y => x.id ≠ y.id) := by
  rcases normClause_some_perm c out h with ⟨b, hb, hperm⟩
  have hbn := buildById_some_nodup c [] List.Pairwise.nil b hb
  exact (hperm.pairwise_iff @idNe_symm).mpr hbn

theorem normClause_some_mem (c out : Clause) (h : normClause c = some out) :
    ∀ x ∈ out, x ∈ c := by
  rcases normClause_some_perm c out h with ⟨b, hb, hperm⟩
  intro x hx
  rcases buildById_some_subset c [] b hb x (hperm.mem_iff.mp hx) with h2 | h2
  · cases h2
  · exact h2

theorem normClause_fix (c : Clause)
    (hn : c.Pairwise (fun x y => x.id ≠ y.id)) (hs : c.Sorted litLE) :
    normClause c = some c := by
  rw [normClause]
  rw [show buildById [] c = some c from by
    simpa using buildById_some_of_nodup c [] (by simpa using hn)]
  simp [List.Sorted.insertionSort_eq hs]

theorem buildById_eq_firstOcc :
    ∀ (cs acc out : List LiteralModel),
      buildById acc cs = some out →
      out = acc ++ firstOcc (cs.filter fun b => acc.all fun a => !(a.id == b.id))
  | [], acc, out, h => by
    rw [buildById] at h
    cases h
    simp [firstOcc]
  | l :: rest, acc, out, h => by
    rw [buildById] at h
    cases hf : acc.find? (fun x => x.id == l.id) with
    | some ex =>
      simp only [hf] at h
      by_cases hop : (ex.op == l.op) = true
      · rw [if_pos hop] at h
        have hkeep : (acc.all fun a => !(a.id == l.id)) = false := by
          rw [List.all_eq_false]
          refine ⟨ex, List.mem_of_find?_eq_some hf, ?_⟩
          have := List.find?_some hf
          simp_all
        rw [List.filter_cons, if_neg (by simp [hkeep])]
        exact buildById_eq_firstOcc rest acc out h
      · rw [if_neg hop] at h
        exact absurd h (by simp)
    | none =>
      simp only [hf] at h
      have hnotin : ∀ a ∈ acc, a.id ≠ l.id := by
        intro a ha
        have := List.find?_eq_none.mp hf a ha
        simpa using this
      have hkeep : (acc.all fun a => !(a.id == l.id)) = true := by
        rw [List.all_eq_true]
        intro a ha
        simp [hnotin a ha]
      rw [List.filter_cons, if_pos (by simp [hkeep])]
      have ih := buildById_eq_firstOcc rest (acc ++ [l]) out h
      rw [firstOcc]
      have hfilters :
          (rest.filter fun b => (acc ++ [l]).all fun a => !(a.id == b.id)) =
            ((rest.filter fun b => acc.all fun a => !(a.id == b.id)).filter
              fun x => !(x.id == l.id)) := by
        rw [List.filter_filter]
        apply List.filter_congr
        intro x _
        simp only [List.all_append, List.all_cons, List.all_nil, Bool.and_true]
        rw [Bool.and_comm]
        congr 1
        simp [eq_comm]
      rw [ih, hfilters]
      simp

theorem normClause_eq_sorted_firstOcc (c out : Clause) (h : normClause c = some out) :
    out = List.insertionSort litLE (firstOcc c) := by
  rw [normClause] at h
  cases hb : buildById [] c with
  | none => rw [hb] at h; cases h
  | some b =>
    rw [hb] at h
    cases h
    have h2 := buildById_eq_firstOcc c [] b hb
    simp at h2
    rw [h2]

theorem dedupAux_mem :
    ∀ (cs : List Clause) (seen : List (List (List Char × LiteralOp))) (c : Clause),
      c ∈ dedupAux seen cs → ∃ c0 ∈ cs, normClause c0 = some c
  | [], _, c, h => by cases h
  | clause :: rest, seen, c, h => by
    rw [dedupAux] at h
    cases hn : normClause clause with
    | none =>
      simp only [hn] at h
      rcases dedupAux_mem rest seen c h with ⟨c0, h1, h2⟩
      exact ⟨c0, List.mem_cons_of_mem _ h1, h2⟩
    | some ordered =>
      simp only [hn] at h
      by_cases hs : signature ordered ∈ seen
      · rw [if_pos hs] at h
        rcases dedupAux_mem rest seen c h with ⟨c0, h1, h2⟩
        exact ⟨c0, List.mem_cons_of_mem _ h1, h2⟩
      · rw [if_neg hs] at h
        rcases List.mem_cons.mp h with rfl | h2
        · exact ⟨clause, List.mem_cons_self _ _, hn⟩
        · rcases dedupAux_mem rest _ c h2 with ⟨c0, h1, h3⟩
          exact ⟨c0, List.mem_cons_of_mem _ h1, h3⟩

theorem dedupAux_sig_props :
    ∀ (cs : List Clause) (seen : List (List (List Char × LiteralOp))),
      (dedupAux seen cs).Pairwise (fun a b => signature a ≠ signature b) ∧
      ∀ c ∈ dedupAux seen cs, signature c ∉ seen
  | [], _ => by simp [dedupAux]
  | clause :: rest, seen => by
    rw [dedupAux]
    cases hn : normClause clause with
    | none => exact dedupAux_sig_props rest seen
    | some ordered =>
      simp only
      by_cases hs : signature ordered ∈ seen
      · rw [if_pos hs]
        exact dedupAux_sig_props rest seen
      · rw [if_neg hs]
        have ih := dedupAux_sig_props rest (signature ordered :: seen)
        constructor
        · rw [List.pairwise_cons]
          refine ⟨?_, ih.1⟩
          intro b hb e
          exact (ih.2 b hb) (e ▸ List.mem_cons_self _ _)
        · intro c hc
          rcases List.mem_cons.mp hc with rfl | h2
          · exact hs
          · intro hmem
            exact (ih.2 c h2) (List.mem_cons_of_mem _ hmem)

theorem dedupAux_eq_self :
    ∀ (cs : List Clause) (seen : List (List (List Char × LiteralOp))),
      (∀ c ∈ cs, normClause c = some c) →
      cs.Pairwise (fun a b => signature a ≠ signature b) →
      (∀ c ∈ cs, signature c ∉ seen) →
      dedupAux seen cs = cs
  | [], _, _, _, _ => by simp [dedupAux]
  | clause :: rest, seen, hall, hp, hseen => by
    rw [dedupAux]
    simp only [hall clause (List.mem_cons_self _ _)]
    rw [if_neg (hseen clause (List.mem_cons_self _ _))]
    congr 1
    apply dedupAux_eq_self rest
    · intro c hc
      exact hall c (List.mem_cons_of_mem _ hc)
    · exact (List.pairwise_cons.mp hp).2
    · intro c hc
      intro hmem
      rcases List.mem_cons.mp hmem with he | h2
      · exact ((List.pairwise_cons.mp hp).1 c hc) he.symm
      · exact hseen c (List.mem_cons_of_mem _ hc) h2

theorem normalize_dnf_sorted (cs : List Clause) :
    (normalize_dnf cs).Sorted clauseLE :=
  List.sorted_insertionSort clauseLE (dedupAux [] cs)

theorem normalize_dnf_perm (cs : List Clause) :
    (normalize_dnf cs).Perm (dedupAux [] cs) :=
  List.perm_insertionSort clauseLE (dedupAux [] cs)

theorem normalize_dnf_mem (cs : List Clause) (c : Clause)
    (h : c ∈ normalize_dnf cs) : ∃ c0 ∈ cs, normClause c0 = some c :=
  dedupAux_mem cs [] c ((normalize_dnf_perm cs).mem_iff.mp h)

theorem normalize_dnf_sig_pairwise (cs : List Clause) :
    (normalize_dnf cs).Pairwise (fun a b => signature a ≠ signature b) :=
  ((normalize_dnf_perm cs).pairwise_iff @sigNe_symm).mpr (dedupAux_sig_props cs []).1

/- ### Claim theorems C3, C10 -/

/-- C3: `normalize_dnf` drops exactly the clauses in which one identifier
occurs with two different operations (`normClause c = none` iff such a
pair exists); a surviving clause keeps one literal per identifier — the
first occurrence — sorted by the case-insensitive natural key on the
identifier with ties broken by the operation order EQ0 < EQ1 < NEQ1
(`insertionSort litLE (firstOcc c)`); later clauses duplicating an earlier
(identifier, operation) signature are dropped (signatures of the output
are pairwise distinct); and the output is sorted by the same per-literal
key sequence (`clauseLE`), a total decidable order, so it is
deterministic.  In particular `[[A=1, A=1]]` collapses to `[[A=1]]` and
`[[A=1, A=0]]` yields `[]`. -/
theorem C3_normalize_dnf_canonical :
    normalize_dnf [[⟨"A".toList, "A".toList, .EQ1⟩, ⟨"A".toList, "A".toList, .EQ1⟩]] =
      [[⟨"A".toList, "A".toList, .EQ1⟩]] ∧
    normalize_dnf [[⟨"A".toList, "A".toList, .EQ1⟩, ⟨"A".toList, "A".toList, .EQ0⟩]] = [] ∧
    (∀ c : Clause, normClause c = none ↔
      ∃ x ∈ c, ∃ y ∈ c, x.id = y.id ∧ x.op ≠ y.op) ∧
    (∀ c out : Clause, normClause c = some out →
      out = List.insertionSort litLE (firstOcc c) ∧
      out.Pairwise (fun x y => x.id ≠ y.id) ∧ out.Sorted litLE ∧ ∀ x ∈ out, x ∈ c) ∧
    (∀ cs : List Clause,
      (normalize_dnf cs).Sorted clauseLE ∧
      (normalize_dnf cs).Pairwise (fun a b => signature a ≠ signature b) ∧
      ∀ c ∈ normalize_dnf cs, ∃ c0 ∈ cs, normClause c0 = some c) := by
  refine ⟨by decide, by decide, normClause_none_iff, ?_, ?_⟩
  · intro c out h
    exact ⟨normClause_eq_sorted_firstOcc c out h, normClause_some_nodup c out h,
      normClause_some_sorted c out h, normClause_some_mem c out h⟩
  · intro cs
    exact ⟨normalize_dnf_sorted cs, normalize_dnf_sig_pairwise cs,
      fun c hc => normalize_dnf_mem cs c hc⟩

/-- C3 witness: the contradiction criterion applied at the concrete clause
`[A=1, A=0]`, whose identifier appears with two different operations. -/
theorem C3_normalize_dnf_canonical_witness :
    normClause [(⟨"A".toList, "A".toList, .EQ1⟩ : LiteralModel),
      ⟨"A".toList, "A".toList, .EQ0⟩] = none :=
  (C3_normalize_dnf_canonical.2.2.1 _).mpr (by decide)

/-- C10: `normalize_dnf` is idempotent — every clause surviving a first
pass is already deduplicated and sorted, every signature is distinct, and
the clause list is already in canonical order, so a second pass returns
it unchanged. -/
theorem C10_normalize_dnf_idempotent (cs : List Clause) :
    normalize_dnf (normalize_dnf cs) = normalize_dnf cs := by
  have hfix : ∀ c ∈ normalize_dnf cs, normClause c = some c := by
    intro c hc
    rcases normalize_dnf_mem cs c hc with ⟨c0, _, h0⟩
    exact normClause_fix c (normClause_some_nodup c0 c h0) (normClause_some_sorted c0 c h0)
  have h1 : dedupAux [] (normalize_dnf cs) = normalize_dnf cs :=
    dedupAux_eq_self _ [] hfix (normalize_dnf_sig_pairwise cs) (by simp)
  show List.insertionSort clauseLE (dedupAux [] (normalize_dnf cs)) = normalize_dnf cs
  rw [h1]
  exact List.Sorted.insertionSort_eq (normalize_dnf_sorted cs)

/- ### Claim theorems C4, C6, C7, C8 -/

/-- C4: the recursive-descent parser implements the 3-level grammar
`expr := term (OR term)*`, `term := factor (AND factor)*`,
`factor := NOT factor | LPAREN expr RPAREN | LITERAL` with OR lowest
precedence, NOT highest, parentheses overriding, and left-associative
OR/AND chains: `A OR B AND C` parses as `Or(A, And(B, C))`,
`A AND B AND C` as `And(And(A, B), C)`, `A OR B OR C` as
`Or(Or(A, B), C)`, `(A OR B) AND C` as `And(Or(A, B), C)`, and
`NOT A AND B` as `And(Not(A), B)`. -/
theorem C4_grammar_precedence :
    parse_formula "A OR B AND C".toList =
      .ok (.or (.lit ⟨"A".toList, "A".toList, .EQ1⟩)
        (.and (.lit ⟨"B".toList, "B".toList, .EQ1⟩)
          (.lit ⟨"C".toList, "C".toList, .EQ1⟩))) ∧
    parse_formula "A AND B AND C".toList =
      .ok (.and (.and (.lit ⟨"A".toList, "A".toList, .EQ1⟩)
          (.lit ⟨"B".toList, "B".toList, .EQ1⟩))
        (.lit ⟨"C".toList, "C".toList, .EQ1⟩)) ∧
    parse_formula "A OR B OR C".toList =
      .ok (.or (.or (.lit ⟨"A".toList, "A".toList, .EQ1⟩)
          (.lit ⟨"B".toList, "B".toList, .EQ1⟩))
        (.lit ⟨"C".toList, "C".toList, .EQ1⟩)) ∧
    parse_formula "(A OR B) AND C".toList =
      .ok (.and (.or (.lit ⟨"A".toList, "A".toList, .EQ1⟩)
          (.lit ⟨"B".toList, "B".toList, .EQ1⟩))
        (.lit ⟨"C".toList, "C".toList, .EQ1⟩)) ∧
    parse_formula "NOT A AND B".toList =
      .ok (.and (.not (.lit ⟨"A".toList, "A".toList, .EQ1⟩))
        (.lit ⟨"B".toList, "B".toList, .EQ1⟩)) := by
  refine ⟨?_, ?_, ?_, ?_, ?_⟩ <;> decide

/-- C7: a word (alphabetic) operator token matches only at word
boundaries: whenever `matches_at` succeeds for a word token, the
preceding and following characters (if any) are not identifier
characters.  With `AND` configured as a keyword token (default
configuration), `ANDREW=1` therefore tokenizes as a single LITERAL token
for the whole text — one identifier with an equality suffix — and not as
an AND token followed by `REW=1`; at a real boundary (`AND REW1`) the
keyword does match. -/
theorem C7_word_boundary :
    tokenize "ANDREW=1".toList = .ok [⟨.LITERAL, "ANDREW=1".toList, 0⟩] ∧
    tokenize "AND REW1".toList =
      .ok [⟨.AND, "AND".toList, 0⟩, ⟨.LITERAL, "REW1".toList, 4⟩] ∧
    (∀ token prev cs, matches_at cs prev token true = true →
      (∀ c, prev = some c → isWordChar c = false) ∧
      (∀ c, (cs.drop token.length).head? = some c → isWordChar c = false)) := by
  refine ⟨by decide, by decide, ?_⟩
  intro token prev cs h
  rw [matches_at, if_pos rfl] at h
  simp only [Bool.and_eq_true] at h
  constructor
  · intro c hc
    have := h.1.2
    rw [hc] at this
    simpa [boundaryOk] using this
  · intro c hc
    have := h.2
    rw [hc] at this
    simpa [boundaryOk] using this

/-- C7 witness: the boundary conditions extracted from the concrete match
of the word token `AND` at the head of `AND B` after a space. -/
theorem C7_word_boundary_witness :
    (∀ c, (some ' ') = some c → isWordChar c = false) ∧
    (∀ c, (("AND B".toList).drop ("AND".toList).length).head? = some c →
      isWordChar c = false) :=
  C7_word_boundary.2.2 "AND".toList (some ' ') "AND B".toList (by decide)

/-- C8 counterexample: contrary to the claim, `tokenize` does not raise on
`A<>0` — it succeeds, producing the single LITERAL token `A<>0` (the
comparator followed by the digit 0 is accepted by the tokenizer's literal
scan). -/
theorem C8_tokenize_accepts_neq0 :
    tokenize "A<>0".toList = .ok [⟨.LITERAL, "A<>0".toList, 0⟩] := by
  decide

/-- C8 amended: the input `A<>0` is rejected with a ParseError whose
message mentions the offending substring `<>0`, but by the literal
normalizer `parse_literal` — and hence by full formula parsing, which
wraps the literal failure — not by `tokenize`, which accepts the text as
a single LITERAL token. -/
theorem C8_neq0_rejected_at_literal :
    (∃ m, parse_literal "A<>0".toList "A<>0".toList = .error m ∧
      containsSub "<>0".toList m = true) ∧
    (∃ m pos, parse_formula "A<>0".toList = .error (.parse (.literalFailed m pos)) ∧
      containsSub "<>0".toList m = true) := by
  refine ⟨⟨("Invalid comparison in literal: \x27<>0\x27 is not allowed " ++
    "(use \x27<>1\x27). Literal: A<>0").toList, by decide, by decide⟩,
    ⟨("Invalid comparison in literal: \x27<>0\x27 is not allowed " ++
    "(use \x27<>1\x27). Literal: A<>0").toList, 0, by decide, by decide⟩⟩

/- ### Helper lemmas about strip / parse_literal -/

theorem strip_decomp (l : List Char) :
    ∃ w1 w2, l = w1 ++ (strip l ++ w2) ∧ (∀ c ∈ w1, pySpace c = true) ∧
      (∀ c ∈ w2, pySpace c = true) := by
  refine ⟨l.takeWhile pySpace,
    ((l.dropWhile pySpace).reverse.takeWhile pySpace).reverse, ?_, ?_, ?_⟩
  · have hA := List.takeWhile_append_dropWhile pySpace (l.dropWhile pySpace).reverse
    have h2 := congrArg List.reverse hA
    rw [List.reverse_append, List.reverse_reverse] at h2
    conv_lhs => rw [← List.takeWhile_append_dropWhile pySpace l]
    congr 1
    exact h2.symm
  · intro c hc; exact List.mem_takeWhile_imp hc
  · intro c hc; exact List.mem_takeWhile_imp (List.mem_reverse.mp hc)

theorem mem_strip_of_not_space {c : Char} {l : List Char} (hs : pySpace c = false)
    (h : c ∈ l) : c ∈ strip l := by
  obtain ⟨w1, w2, he, h1, h2⟩ := strip_decomp l
  rw [he] at h
  rcases List.mem_append.mp h with h3 | h3
  · rw [h1 c h3] at hs; cases hs
  · rcases List.mem_append.mp h3 with h4 | h4
    · exact h4
    · rw [h2 c h4] at hs; cases hs

theorem hasAngleEq_all_space (w : List Char) (hw : ∀ c ∈ w, pySpace c = true) :
    hasAngleEq w = false := by
  induction w with
  | nil => rfl
  | cons a t ih =>
    cases t with
    | nil => rfl
    | cons b t2 =>
      have ha := hw a (by simp)
      have h1 : (a == '<') = false := by
        refine beq_eq_false_iff_ne.mpr fun e => ?_
        subst e; exact absurd ha (by decide)
      have h2 : (a == '>') = false := by
        refine beq_eq_false_iff_ne.mpr fun e => ?_
        subst e; exact absurd ha (by decide)
      rw [hasAngleEq, h1, h2]
      simpa using ih fun c hc => hw c (List.mem_cons_of_mem _ hc)

theorem hasAngleEq_ws_append (w m : List Char) (hw : ∀ c ∈ w, pySpace c = true) :
    hasAngleEq (w ++ m) = hasAngleEq m := by
  induction w with
  | nil => rfl
  | cons a t ih =>
    have ha := hw a (by simp)
    have h1 : (a == '<') = false := by
      refine beq_eq_false_iff_ne.mpr fun e => ?_
      subst e; exact absurd ha (by decide)
    have h2 : (a == '>') = false := by
      refine beq_eq_false_iff_ne.mpr fun e => ?_
      subst e; exact absurd ha (by decide)
    have ih2 := ih fun c hc => hw c (List.mem_cons_of_mem _ hc)
    cases hc : t ++ m with
    | nil =>
      have hm : m = [] := (List.append_eq_nil.mp hc).2
      subst hm
      rw [List.cons_append, hc]
      rfl
    | cons b t2 =>
      rw [List.cons_append, hc, hasAngleEq, h1, h2, ← hc, ih2]
      simp

theorem hasAngleEq_append_ws (m w : List Char) (hw : ∀ c ∈ w, pySpace c = true) :
    hasAngleEq (m ++ w) = hasAngleEq m := by
  induction m with
  | nil => simpa using hasAngleEq_all_space w hw
  | cons a t ih =>
    cases t with
    | nil =>
      cases w with
      | nil => rfl
      | cons b t2 =>
        have hb := hw b (by simp)
        have h3 : (b == '=') = false := by
          refine beq_eq_false_iff_ne.mpr fun e => ?_
          subst e; exact absurd hb (by decide)
        rw [show ([a] ++ (b :: t2)) = a :: b :: t2 from rfl, hasAngleEq, h3]
        rw [hasAngleEq_all_space (b :: t2) fun c hc => hw c hc]
        simp [hasAngleEq]
    | cons b t2 =>
      rw [show ((a :: b :: t2) ++ w) = a :: b :: (t2 ++ w) from rfl, hasAngleEq, hasAngleEq]
      have ih2 : hasAngleEq (b :: (t2 ++ w)) = hasAngleEq (b :: t2) := ih
      rw [ih2]

theorem hasAngleEq_strip (l : List Char) (h : hasAngleEq l = true) :
    hasAngleEq (strip l) = true := by
  obtain ⟨w1, w2, he, h1, h2⟩ := strip_decomp l
  rw [he, hasAngleEq_ws_append w1 _ h1, hasAngleEq_append_ws _ w2 h2] at h
  exact h

theorem resolveNeq_op :
    ∀ (t : List Char) (L : List (List Char)) (p : List Char × LiteralOp),
      resolveNeq t L = some p → p.2 = .NEQ1
  | _, [], _, h => by rw [resolveNeq] at h; cases h
  | t, neq :: rest, p, h => by
    rw [resolveNeq] at h
    split at h
    · cases h; rfl
    · exact resolveNeq_op t rest p h

theorem resolveEq_default (t : List Char) (p : List Char × LiteralOp)
    (h : resolveEq t default_eq_ops = some p) :
    ∃ d0, (d0 = '0' ∨ d0 = '1') ∧ endsWithL ['=', d0] t = true ∧
      p.1 = strip (dropSuffix t 2) := by
  rw [show default_eq_ops = [['=']] from rfl, resolveEq] at h
  split at h
  · cases h
    exact ⟨'0', Or.inl rfl, by assumption, rfl⟩
  · split at h
    · cases h
      exact ⟨'1', Or.inr rfl, by assumption, rfl⟩
    · rw [resolveEq] at h; cases h

theorem endsWithL_decomp (pat l : List Char) (h : endsWithL pat l = true) :
    l = dropSuffix l pat.length ++ pat := by
  rw [endsWithL] at h
  have h2 : l.drop (l.length - pat.length) = pat := by simpa using h
  rw [dropSuffix]
  conv_lhs => rw [← List.take_append_drop (l.length - pat.length) l]
  rw [h2]

/-- Inversion of a successful `parse_literal`: the returned literal is
exactly the suffix resolution of the stripped text, with a nonempty
all-word-character identifier. -/
theorem parse_literal_ok_inv (raw d : List Char) (lit : LiteralModel)
    (h : parse_literal raw d = .ok lit) :
    ∃ ident op, resolveSuffix (strip raw) = (ident, op) ∧
      lit = ⟨ident, d, op⟩ ∧ ident.isEmpty = false ∧
      ident.all isWordChar = true := by
  rw [parse_literal] at h
  split at h
  · exact (Except.noConfusion h)
  · split at h
    · exact (Except.noConfusion h)
    · split at h
      · exact (Except.noConfusion h)
      · split at h
        rename_i ident op heq
        split at h
        · exact (Except.noConfusion h)
        · split at h
          · exact (Except.noConfusion h)
          · rename_i hne hna
            cases h
            refine ⟨ident, op, heq, rfl, ?_, ?_⟩
            · cases hb : ident.isEmpty
              · rfl
              · exact absurd hb hne
            · cases hb : ident.all isWordChar
              · exact absurd (by rw [hb]; rfl) hna
              · rfl

/- ### Claim theorems C6, C9 -/

/-- C6: `parse_literal` resolves the comparison suffix in the order
leading `!` → NEQ1, configured NEQ token + `1` → NEQ1, configured EQ
token + `0`/`1` → EQ0/EQ1, bare identifier → EQ1, with the identifier
being the text minus the matched prefix/suffix, whitespace-trimmed
(`resolveSuffix`): every successful parse returns exactly the literal
`resolveSuffix` determines on the stripped text, a leading `!` forces
NEQ1, and under the default configuration `A!=1`, `A<>1` and `!A` all
yield identifier `A` with operation NEQ1. -/
theorem C6_literal_suffix_resolution :
    (∀ d, parse_literal "A!=1".toList d = .ok ⟨"A".toList, d, .NEQ1⟩) ∧
    (∀ d, parse_literal "A<>1".toList d = .ok ⟨"A".toList, d, .NEQ1⟩) ∧
    (∀ d, parse_literal "!A".toList d = .ok ⟨"A".toList, d, .NEQ1⟩) ∧
    (∀ text, (strip text).head? = some '!' →
      resolveSuffix (strip text) = (strip (strip text).tail, .NEQ1)) ∧
    (∀ raw d lit, parse_literal raw d = .ok lit →
      lit = ⟨(resolveSuffix (strip raw)).1, d, (resolveSuffix (strip raw)).2⟩) := by
  refine ⟨fun d => rfl, fun d => rfl, fun d => rfl, ?_, ?_⟩
  · intro t h
    rw [resolveSuffix, if_pos (by rw [h]; rfl)]
  · intro raw d lit h
    obtain ⟨ident, op, heq, rfl, _, _⟩ := parse_literal_ok_inv raw d lit h
    rw [heq]

/-- C6 witness: the leading-`!` rule applied at the concrete text `!A`. -/
theorem C6_literal_suffix_resolution_witness :
    resolveSuffix (strip "!A".toList) = (strip (strip "!A".toList).tail, .NEQ1) :=
  C6_literal_suffix_resolution.2.2.2.1 "!A".toList (by decide)

/-- C9 counterexample: the raw literal text `A<>1` contains the ordering
comparator characters `<` and `>`, yet `parse_literal` succeeds on it
(returning identifier `A` with operation NEQ1), because `<>` is the
configured not-equals token; so texts containing `<`/`>` do not always
fail. -/
theorem C9_angle_literal_succeeds :
    parse_literal "A<>1".toList "A".toList =
      .ok ⟨"A".toList, "A".toList, .NEQ1⟩ ∧
    '<' ∈ "A<>1".toList ∧ '>' ∈ "A<>1".toList :=
  ⟨rfl, by decide, by decide⟩

/-- C9 amended: a raw literal text containing `<=`/`>=` (an angle bracket
immediately followed by `=`) always fails with a ParseError; and for any
text containing `<` or `>`, `parse_literal` either fails or returns a
literal whose operation is NEQ1 — the only successful form is an
identifier followed by the configured not-equals token and `1` (such as
`A<>1`), resolved by the NEQ suffix rule. -/
theorem C9_ordering_comparator_amended :
    (∀ raw d, hasAngleEq raw = true → ∃ m, parse_literal raw d = .error m) ∧
    (∀ raw d lit, ('<' ∈ raw ∨ '>' ∈ raw) → parse_literal raw d = .ok lit →
      lit.op = .NEQ1) := by
  constructor
  · intro raw d h
    exact ⟨_, by rw [parse_literal, if_pos (hasAngleEq_strip raw h)]⟩
  · intro raw d lit hmem h
    obtain ⟨ident, op, heq, rfl, hne, hall⟩ := parse_literal_ok_inv raw d lit h
    show op = .NEQ1
    have hword : ∀ x ∈ ident, isWordChar x = true :=
      fun x hx => List.all_eq_true.mp hall x hx
    have hmem2 : ('<' ∈ strip raw) ∨ ('>' ∈ strip raw) := by
      rcases hmem with hm | hm
      · exact Or.inl (mem_strip_of_not_space (by decide) hm)
      · exact Or.inr (mem_strip_of_not_space (by decide) hm)
    by_cases hbang : (((strip raw).head?) == some '!') = true
    · rw [resolveSuffix, if_pos hbang] at heq
      exact (congrArg Prod.snd heq).symm
    · rw [resolveSuffix, if_neg hbang] at heq
      cases hneq : resolveNeq (strip raw) default_neq_ops with
      | some p =>
        simp only [hneq] at heq
        have hsnd : p.2 = op := congrArg Prod.snd heq
        rw [← hsnd]
        exact resolveNeq_op _ _ _ hneq
      | none =>
        simp only [hneq] at heq
        cases hteq : resolveEq (strip raw) default_eq_ops with
        | some p =>
          simp only [hteq] at heq
          obtain ⟨d0, hd0, hends, hfst⟩ := resolveEq_default _ _ hteq
          exfalso
          have hdec := endsWithL_decomp ['=', d0] (strip raw) hends
          have hident : ident = strip (dropSuffix (strip raw) 2) := by
            have hfst2 : p.1 = ident := congrArg Prod.fst heq
            rw [← hfst2, hfst]
          rcases hmem2 with hm | hm
          · rw [hdec] at hm
            rcases List.mem_append.mp hm with hm2 | hm2
            · have h3 : '<' ∈ strip (dropSuffix (strip raw) 2) :=
                mem_strip_of_not_space (by decide) hm2
              rw [← hident] at h3
              exact absurd (hword _ h3) (by decide)
            · rcases hd0 with rfl | rfl <;> exact absurd hm2 (by decide)
          · rw [hdec] at hm
            rcases List.mem_append.mp hm with hm2 | hm2
            · have h3 : '>' ∈ strip (dropSuffix (strip raw) 2) :=
                mem_strip_of_not_space (by decide) hm2
              rw [← hident] at h3
              exact absurd (hword _ h3) (by decide)
            · rcases hd0 with rfl | rfl <;> exact absurd hm2 (by decide)
        | none =>
          simp only [hteq] at heq
          exfalso
          have hident : ident = strip raw := (congrArg Prod.fst heq).symm
          rcases hmem2 with hm | hm
          · rw [← hident] at hm
            exact absurd (hword _ hm) (by decide)
          · rw [← hident] at hm
            exact absurd (hword _ hm) (by decide)

/-- C9 amended witness: the `<=` rejection applied to the concrete text
`A<=1`, and the NEQ1 conclusion applied to the concrete success `A<>1`. -/
theorem C9_ordering_comparator_amended_witness :
    (∃ m, parse_literal "A<=1".toList "A".toList = .error m) ∧
    (⟨"A".toList, "A".toList, .NEQ1⟩ : LiteralModel).op = .NEQ1 :=
  ⟨C9_ordering_comparator_amended.1 "A<=1".toList "A".toList (by decide),
   C9_ordering_comparator_amended.2 "A<>1".toList "A".toList
     ⟨"A".toList, "A".toList, .NEQ1⟩ (Or.inl (by decide)) rfl⟩

/- ### Helper lemmas about the parser -/

/-- Token consumption: every successful parse phase consumes tokens — the
dispatch phases (`factor`/`term`/`expr`) consume at least one token, the
`while`-loop phases never grow the remainder. -/
theorem parseF_consume (lp : List Char → Except Msg LiteralModel) :
    ∀ f : Nat,
      (∀ ts a r, parseF lp f (.factor ts) = .ok (a, r) → r.length < ts.length) ∧
      (∀ ts a r, parseF lp f (.term ts) = .ok (a, r) → r.length < ts.length) ∧
      (∀ n ts a r, parseF lp f (.termLoop n ts) = .ok (a, r) → r.length ≤ ts.length) ∧
      (∀ ts a r, parseF lp f (.expr ts) = .ok (a, r) → r.length < ts.length) ∧
      (∀ n ts a r, parseF lp f (.exprLoop n ts) = .ok (a, r) → r.length ≤ ts.length) := by
  intro f
  induction f with
  | zero =>
    refine ⟨?_, ?_, ?_, ?_, ?_⟩
    · intro ts a r h; rw [parseF] at h; exact Except.noConfusion h
    · intro ts a r h; rw [parseF] at h; exact Except.noConfusion h
    · intro n ts a r h; rw [parseF] at h; exact Except.noConfusion h
    · intro ts a r h; rw [parseF] at h; exact Except.noConfusion h
    · intro n ts a r h; rw [parseF] at h; exact Except.noConfusion h
  | succ f ih =>
    obtain ⟨ihF, ihT, ihTL, ihE, ihEL⟩ := ih
    have hFactor : ∀ ts a r, parseF lp (f + 1) (.factor ts) = .ok (a, r) →
        r.length < ts.length := by
      intro ts a r h
      cases ts with
      | nil => rw [parseF] at h; exact Except.noConfusion h
      | cons t rest =>
        rw [parseF] at h
        split at h
        · -- NOT
          split at h
          · exact Except.noConfusion h
          · rename_i a2 r2 hrec
            obtain ⟨rfl, rfl⟩ : AstNode.not a2 = a ∧ r2 = r := by simpa using h
            have := ihF rest a2 r2 hrec
            simp only [List.length_cons]
            omega
        · -- LPAREN
          split at h
          · exact Except.noConfusion h
          · rename_i a2 r2 hrec
            split at h
            · exact Except.noConfusion h
            · rename_i t2 r3
              split at h
              · obtain ⟨rfl, rfl⟩ : a2 = a ∧ r3 = r := by simpa using h
                have := ihE rest a2 (t2 :: r3) hrec
                simp only [List.length_cons] at this ⊢
                omega
              · exact Except.noConfusion h
        · -- LITERAL
          split at h
          · exact Except.noConfusion h
          · obtain ⟨rfl, rfl⟩ : _ ∧ rest = r := by simpa using h
            simp
        · -- other token types
          exact Except.noConfusion h
    have hTermLoop : ∀ n ts a r, parseF lp (f + 1) (.termLoop n ts) = .ok (a, r) →
        r.length ≤ ts.length := by
      intro n ts a r h
      cases ts with
      | nil =>
        rw [parseF] at h
        obtain ⟨rfl, rfl⟩ : n = a ∧ ([] : List Token) = r := by simpa using h
        simp
      | cons t rest =>
        rw [parseF] at h
        split at h
        · -- AND
          split at h
          · exact Except.noConfusion h
          · rename_i b r2 hrec
            have h1 := ihF rest b r2 hrec
            have h2 := ihTL (.and n b) r2 a r h
            simp only [List.length_cons]
            omega
        · obtain ⟨rfl, rfl⟩ : n = a ∧ t :: rest = r := by simpa using h
          simp
    have hTerm : ∀ ts a r, parseF lp (f + 1) (.term ts) = .ok (a, r) →
        r.length < ts.length := by
      intro ts a r h
      rw [parseF] at h
      split at h
      · exact Except.noConfusion h
      · rename_i a2 r2 hrec
        have h1 := ihF ts a2 r2 hrec
        have h2 := ihTL a2 r2 a r h
        omega
    have hExprLoop : ∀ n ts a r, parseF lp (f + 1) (.exprLoop n ts) = .ok (a, r) →
        r.length ≤ ts.length := by
      intro n ts a r h
      cases ts with
      | nil =>
        rw [parseF] at h
        obtain ⟨rfl, rfl⟩ : n = a ∧ ([] : List Token) = r := by simpa using h
        simp
      | cons t rest =>
        rw [parseF] at h
        split at h
        · -- OR
          split at h
          · exact Except.noConfusion h
          · rename_i b r2 hrec
            have h1 := ihT rest b r2 hrec
            have h2 := ihEL (.or n b) r2 a r h
            simp only [List.length_cons]
            omega
        · obtain ⟨rfl, rfl⟩ : n = a ∧ t :: rest = r := by simpa using h
          simp
    have hExpr : ∀ ts a r, parseF lp (f + 1) (.expr ts) = .ok (a, r) →
        r.length < ts.length := by
      intro ts a r h
      rw [parseF] at h
      split at h
      · exact Except.noConfusion h
      · rename_i a2 r2 hrec
        have h1 := ihT ts a2 r2 hrec
        have h2 := ihEL a2 r2 a r h
        omega
    exact ⟨hFactor, hTerm, hTermLoop, hExpr, hExprLoop⟩

/-- Error classification: with a total literal callback and sufficient
fuel (`3·length + k` per phase, which `topFuel` provides at the top), the
parser can only fail with "unexpected end of formula", "expected RPAREN",
or "unexpected token" — never with the fuel artifact, and never with a
literal failure. -/
theorem parseF_good (lp : List Char → Except Msg LiteralModel)
    (htotal : ∀ v, ∃ l0, lp v = .ok l0) :
    ∀ f : Nat,
      (∀ ts, 3 * ts.length + 1 ≤ f →
        ∀ e, parseF lp f (.factor ts) = .error e → goodErr e) ∧
      (∀ ts, 3 * ts.length + 2 ≤ f →
        ∀ e, parseF lp f (.term ts) = .error e → goodErr e) ∧
      (∀ (n : AstNode) ts, 3 * ts.length + 2 ≤ f →
        ∀ e, parseF lp f (.termLoop n ts) = .error e → goodErr e) ∧
      (∀ ts, 3 * ts.length + 3 ≤ f →
        ∀ e, parseF lp f (.expr ts) = .error e → goodErr e) ∧
      (∀ (n : AstNode) ts, 3 * ts.length + 3 ≤ f →
        ∀ e, parseF lp f (.exprLoop n ts) = .error e → goodErr e) := by
  intro f
  induction f with
  | zero =>
    refine ⟨?_, ?_, ?_, ?_, ?_⟩
    · intro ts hb; omega
    · intro ts hb; omega
    · intro n ts hb; omega
    · intro ts hb; omega
    · intro n ts hb; omega
  | succ f ih =>
    obtain ⟨ihF, ihT, ihTL, ihE, ihEL⟩ := ih
    obtain ⟨cF, cT, cTL, cE, cEL⟩ := parseF_consume lp f
    have hFactor : ∀ ts, 3 * ts.length + 1 ≤ f + 1 →
        ∀ e, parseF lp (f + 1) (.factor ts) = .error e → goodErr e := by
      intro ts hb e h
      cases ts with
      | nil =>
        rw [parseF] at h
        obtain rfl : PErr.unexpectedEnd = e := by simpa using h
        exact Or.inl rfl
      | cons t rest =>
        rw [parseF] at h
        simp only [List.length_cons] at hb
        split at h
        · -- NOT
          split at h
          · rename_i e2 hrec
            obtain rfl : e2 = e := by simpa using h
            exact ihF rest (by omega) e2 hrec
          · exact Except.noConfusion h
        · -- LPAREN
          split at h
          · rename_i e2 hrec
            obtain rfl : e2 = e := by simpa using h
            exact ihE rest (by omega) e2 hrec
          · rename_i a2 r2 hrec
            split at h
            · obtain rfl : PErr.unexpectedEnd = e := by simpa using h
              exact Or.inl rfl
            · rename_i t2 r3
              split at h
              · exact Except.noConfusion h
              · obtain rfl : PErr.expectedTok .RPAREN t2 = e := by simpa using h
                exact Or.inr (Or.inl ⟨t2, rfl⟩)
        · -- LITERAL
          split at h
          · rename_i m hlp
            obtain ⟨l0, hl0⟩ := htotal t.value
            rw [hl0] at hlp
            exact Except.noConfusion hlp
          · exact Except.noConfusion h
        · -- other token types
          obtain rfl : PErr.unexpectedToken t = e := by simpa using h
          exact Or.inr (Or.inr ⟨t, rfl⟩)
    have hTermLoop : ∀ (n : AstNode) ts, 3 * ts.length + 2 ≤ f + 1 →
        ∀ e, parseF lp (f + 1) (.termLoop n ts) = .error e → goodErr e := by
      intro n ts hb e h
      cases ts with
      | nil => rw [parseF] at h; exact Except.noConfusion h
      | cons t rest =>
        rw [parseF] at h
        simp only [List.length_cons] at hb
        split at h
        · -- AND
          split at h
          · rename_i e2 hrec
            obtain rfl : e2 = e := by simpa using h
            exact ihF rest (by omega) e2 hrec
          · rename_i b r2 hrec
            have hc := cF rest b r2 hrec
            exact ihTL (.and n b) r2 (by omega) e h
        · exact Except.noConfusion h
    have hTerm : ∀ ts, 3 * ts.length + 2 ≤ f + 1 →
        ∀ e, parseF lp (f + 1) (.term ts) = .error e → goodErr e := by
      intro ts hb e h
      rw [parseF] at h
      split at h
      · rename_i e2 hrec
        obtain rfl : e2 = e := by simpa using h
        exact ihF ts (by omega) e2 hrec
      · rename_i a2 r2 hrec
        have hc := cF ts a2 r2 hrec
        exact ihTL a2 r2 (by omega) e h
    have hExprLoop : ∀ (n : AstNode) ts, 3 * ts.length + 3 ≤ f + 1 →
        ∀ e, parseF lp (f + 1) (.exprLoop n ts) = .error e → goodErr e := by
      intro n ts hb e h
      cases ts with
      | nil => rw [parseF] at h; exact Except.noConfusion h
      | cons t rest =>
        rw [parseF] at h
        simp only [List.length_cons] at hb
        split at h
        · -- OR
          split at h
          · rename_i e2 hrec
            obtain rfl : e2 = e := by simpa using h
            exact ihT rest (by omega) e2 hrec
          · rename_i b r2 hrec
            have hc := cT rest b r2 hrec
            exact ihEL (.or n b) r2 (by omega) e h
        · exact Except.noConfusion h
    have hExpr : ∀ ts, 3 * ts.length + 3 ≤ f + 1 →
        ∀ e, parseF lp (f + 1) (.expr ts) = .error e → goodErr e := by
      intro ts hb e h
      rw [parseF] at h
      split at h
      · rename_i e2 hrec
        obtain rfl : e2 = e := by simpa using h
        exact ihT ts (by omega) e2 hrec
      · rename_i a2 r2 hrec
        have hc := cT ts a2 r2 hrec
        exact ihEL a2 r2 (by omega) e h
    exact ⟨hFactor, hTerm, hTermLoop, hExpr, hExprLoop⟩

/- ### Claim theorem C5 -/

/-- C5: given a literal-interpretation callback that succeeds on every
literal token, `parseTokens` fails exactly in the cases the contract
names: the empty token stream (`emptyFormula`), an unexpected token or
end of input where an operand/operator was expected (`unexpectedEnd`,
`unexpectedToken`), a missing closing parenthesis (`expectedTok RPAREN`),
or unconsumed tokens after a complete expression (`trailing`) — never a
literal failure and never the fuel artifact of the embedding; and every
success comes from a run of `parse_expr` that consumed the whole stream. -/
theorem C5_parse_error_contract (lp : List Char → Except Msg LiteralModel)
    (htotal : ∀ v, ∃ l0, lp v = .ok l0) :
    parseTokens lp [] = .error .emptyFormula ∧
    (∀ ts ast, parseTokens lp ts = .ok ast →
      parseF lp (topFuel ts) (.expr ts) = .ok (ast, [])) ∧
    (∀ ts a t r, parseF lp (topFuel ts) (.expr ts) = .ok (a, t :: r) →
      ts ≠ [] → parseTokens lp ts = .error (.trailing t)) ∧
    (∀ ts e, parseTokens lp ts = .error e →
      e = .emptyFormula ∨ e = .unexpectedEnd ∨
      (∃ t, e = .expectedTok .RPAREN t) ∨ (∃ t, e = .unexpectedToken t) ∨
      (∃ t, e = .trailing t)) := by
  refine ⟨rfl, ?_, ?_, ?_⟩
  · intro ts ast h
    rw [parseTokens] at h
    split at h
    · exact Except.noConfusion h
    · split at h
      · exact Except.noConfusion h
      · rename_i a2 heq
        obtain rfl : a2 = ast := by simpa using h
        exact heq
      · exact Except.noConfusion h
  · intro ts a t r hp hne
    have hemp : ts.isEmpty = false := by
      cases ts with
      | nil => exact absurd rfl hne
      | cons x xs => rfl
    rw [parseTokens, hemp]
    simp only [Bool.false_eq_true, if_false, hp]
  · intro ts e h
    rw [parseTokens] at h
    split at h
    · obtain rfl : PErr.emptyFormula = e := by simpa using h
      exact Or.inl rfl
    · split at h
      · rename_i e2 heq
        obtain rfl : e2 = e := by simpa using h
        have hg := (parseF_good lp htotal (topFuel ts)).2.2.2.1 ts
          (by simp [topFuel]) e2 heq
        rcases hg with h1 | ⟨t, h1⟩ | ⟨t, h1⟩
        · exact Or.inr (Or.inl h1)
        · exact Or.inr (Or.inr (Or.inl ⟨t, h1⟩))
        · exact Or.inr (Or.inr (Or.inr (Or.inl ⟨t, h1⟩)))
      · exact Except.noConfusion h
      · rename_i t rest2 heq2
        obtain rfl : PErr.trailing t = e := by simpa using h
        exact Or.inr (Or.inr (Or.inr (Or.inr ⟨t, rfl⟩)))

/-- C5 witness: the contract applied with the always-succeeding callback
mapping a literal token to an EQ1 literal — the empty stream errors with
`emptyFormula`, and the error of the concrete stream `LITERAL AND`
(an AND with no right operand) falls in the allowed classes. -/
theorem C5_parse_error_contract_witness :
    parseTokens (fun v => .ok ⟨v, v, .EQ1⟩) [] = .error .emptyFormula ∧
    (PErr.unexpectedEnd = .emptyFormula ∨ PErr.unexpectedEnd = .unexpectedEnd ∨
      (∃ t, PErr.unexpectedEnd = .expectedTok .RPAREN t) ∨
      (∃ t, PErr.unexpectedEnd = .unexpectedToken t) ∨
      (∃ t, PErr.unexpectedEnd = .trailing t)) :=
  ⟨(C5_parse_error_contract (fun v => .ok ⟨v, v, .EQ1⟩) fun v => ⟨_, rfl⟩).1,
   (C5_parse_error_contract (fun v => .ok ⟨v, v, .EQ1⟩) fun v => ⟨_, rfl⟩).2.2.2
     [⟨.LITERAL, "A".toList, 0⟩, ⟨.AND, "AND".toList, 2⟩] .unexpectedEnd (by decide)⟩

end HFP
